import Mathlib

set_option maxHeartbeats 1000000
set_option maxRecDepth 10000

/-! Shallow embedding of the Gaussian-elimination solver in `src/src/solver.cpp`.

The C++ code works on `double A[N][N]` and `double b[N]` with `N = 10`,
mutating both in place.  Here the state is a pair of total functions
`Fin n → Fin n → ℚ` and `Fin n → ℚ`, arithmetic is exact rational
arithmetic, and each imperative loop becomes a structural recursion over
the explicit list of indices it visits.  `std::abs` is `rabs`, the
literal `1e-10` is `eps`.
-/

/-- Absolute value on the rationals, modelling `std::abs`. -/
def rabs (x : ℚ) : ℚ := if x < 0 then -x else x

/-- The near-zero pivot threshold `1e-10` of the C++ code. -/
def eps : ℚ := 1 / 10000000000

/-- The coefficient matrix `double A[N][N]`. -/
abbrev Mat (n : ℕ) := Fin n → Fin n → ℚ

/-- The right-hand-side vector `double b[N]`. -/
abbrev Vec (n : ℕ) := Fin n → ℚ

/-- The list `[0, 1, ..., n-1]` of indices of `Fin n`.  (Extensionally equal
to `List.finRange n`, but built from `List.range` so that it reduces inside
the kernel.) -/
def idxList (n : ℕ) : List (Fin n) :=
  (List.range n).pmap Fin.mk fun _ h => List.mem_range.mp h

theorem idxList_eq_finRange (n : ℕ) : idxList n = List.finRange n :=
  (List.finRange_eq_pmap_range n).symm

/-- The row indices `p+1, ..., n-1`, in increasing order: the index list of
`for (int i = p + 1; i < N; i++)`. -/
def rowsAfter (n : ℕ) (p : Fin n) : List (Fin n) :=
  (idxList n).filter fun i => p < i

/-- The pivot-search loop body: scan the remaining rows, keeping the first
row whose entry in column `p` has strictly larger magnitude than the
current candidate (`if (std::abs(A[i][p]) > std::abs(A[max_row][p]))`). -/
def maxRowAux {n : ℕ} (A : Mat n) (p : Fin n) : List (Fin n) → Fin n → Fin n
  | [], m => m
  | i :: is, m => maxRowAux A p is (if rabs (A i p) > rabs (A m p) then i else m)

/-- Value of `max_row` after the partial-pivoting scan at column `p`. -/
def maxRow {n : ℕ} (A : Mat n) (p : Fin n) : Fin n :=
  maxRowAux A p (rowsAfter n p) p

/-- Full-row exchange `std::swap_ranges(A[p], A[p] + N, A[max_row])` of the
rows `p` and `m`. -/
def swapRows {n : ℕ} (A : Mat n) (p m : Fin n) : Mat n :=
  Function.update (Function.update A p (A m)) m (A p)

/-- Exchange `std::swap(b[p], b[max_row])` of two vector entries. -/
def swapVec {n : ℕ} (b : Vec n) (p m : Fin n) : Vec n :=
  Function.update (Function.update b p (b m)) m (b p)

/-- The elimination loop at pivot `p` over the listed rows: for each row `i`,
compute `factor = A[i][p] / A[p][p]`, update `b[i] -= factor * b[p]`, update
`A[i][j] -= factor * A[p][j]` for `j > p`, and set `A[i][p] = 0`. -/
def elimRows {n : ℕ} (p : Fin n) : List (Fin n) → Mat n × Vec n → Mat n × Vec n
  | [], s => s
  | i :: is, s =>
    let factor := s.1 i p / s.1 p p
    let newRow : Fin n → ℚ := fun j =>
      if p < j then s.1 i j - factor * s.1 p j
      else if j = p then 0
      else s.1 i j
    elimRows p is
      (Function.update s.1 i newRow, Function.update s.2 i (s.2 i - factor * s.2 p))

/-- The near-zero pivot test `std::abs(A[max_row][p]) < 1e-10` at column `p`
in state `s`. -/
def failCond {n : ℕ} (s : Mat n × Vec n) (p : Fin n) : Prop :=
  rabs (s.1 (maxRow s.1 p) p) < eps

instance failCond.dec {n : ℕ} (s : Mat n × Vec n) (p : Fin n) :
    Decidable (failCond s p) :=
  inferInstanceAs (Decidable (_ < _))

/-- The forward-elimination loop `for (int p = 0; p < N; p++)` over the
listed pivot columns.  Returning `(false, s)` is the early `return false`
on a near-zero pivot, with `s` the state at that moment. -/
def elimLoop {n : ℕ} : List (Fin n) → Mat n × Vec n → Bool × Mat n × Vec n
  | [], s => (true, s)
  | p :: ps, s =>
    if failCond s p then (false, s)
    else
      let m := maxRow s.1 p
      let s1 := if m ≠ p then (swapRows s.1 p m, swapVec s.2 p m) else s
      elimLoop ps (elimRows p (rowsAfter n p) s1)

/-- One back-substitution row: subtract the already-solved terms
(`b[i] -= A[i][j] * b[j]` for `j > i`) and divide by the diagonal entry. -/
def backSubRow {n : ℕ} (A : Mat n) (b : Vec n) (i : Fin n) : ℚ :=
  ((rowsAfter n i).foldl (fun acc j => acc - A i j * b j) (b i)) / A i i

/-- The back-substitution loop `for (int i = N - 1; i >= 0; i--)` over the
listed rows. -/
def backSub {n : ℕ} (A : Mat n) : List (Fin n) → Vec n → Vec n
  | [], b => b
  | i :: is, b => backSub A is (Function.update b i (backSubRow A b i))

/-- Embedding of `solveMatrix` from `src/src/solver.cpp`: forward elimination with
partial pivoting over columns `0, ..., n-1`, then (on success) back
substitution over rows `n-1, ..., 0`.  The result is the returned boolean
together with the final contents of `A` and `b`. -/
def solveMatrix {n : ℕ} (A : Mat n) (b : Vec n) : Bool × Mat n × Vec n :=
  let r := elimLoop (idxList n) (A, b)
  if r.1 then (true, r.2.1, backSub r.2.1 (idxList n).reverse r.2.2) else r

/-! Basic facts about the index lists -/

theorem mem_rowsAfter {n : ℕ} {p i : Fin n} : i ∈ rowsAfter n p ↔ p < i := by
  simp [rowsAfter, idxList_eq_finRange, List.mem_filter, List.mem_finRange]

theorem pairwise_rowsAfter {n : ℕ} (p : Fin n) : (rowsAfter n p).Pairwise (· < ·) := by
  rw [rowsAfter, idxList_eq_finRange]
  exact (List.pairwise_lt_finRange n).filter _

theorem not_mem_rowsAfter_self {n : ℕ} (p : Fin n) : p ∉ rowsAfter n p := by
  simp [mem_rowsAfter]

/-! Specification of the partial-pivoting scan -/

theorem maxRowAux_spec {n : ℕ} (A : Mat n) (p : Fin n) :
    ∀ (l : List (Fin n)) (m : Fin n), (∀ i ∈ l, m < i) → l.Pairwise (· < ·) →
      (m ≤ maxRowAux A p l m ∧ (maxRowAux A p l m = m ∨ maxRowAux A p l m ∈ l)) ∧
      (rabs (A m p) ≤ rabs (A (maxRowAux A p l m) p) ∧
        ∀ i ∈ l, rabs (A i p) ≤ rabs (A (maxRowAux A p l m) p)) ∧
      (maxRowAux A p l m ≠ m → rabs (A m p) < rabs (A (maxRowAux A p l m) p)) ∧
      (∀ i ∈ l, i < maxRowAux A p l m → rabs (A i p) < rabs (A (maxRowAux A p l m) p)) := by
  intro l
  induction l with
  | nil =>
    intro m _ _
    simp [maxRowAux]
  | cons i is ih =>
    intro m hlt hpw
    have hmi : m < i := hlt i (List.mem_cons_self i is)
    have hiis : ∀ x ∈ is, i < x := (List.pairwise_cons.mp hpw).1
    have hmis : ∀ x ∈ is, m < x := fun x hx => hlt x (List.mem_cons_of_mem i hx)
    have hpw' : is.Pairwise (· < ·) := (List.pairwise_cons.mp hpw).2
    by_cases hc : rabs (A i p) > rabs (A m p)
    · have hstep : maxRowAux A p (i :: is) m = maxRowAux A p is i := by
        simp [maxRowAux, if_pos hc]
      obtain ⟨⟨ih1a, ih1b⟩, ⟨ih2a, ih2b⟩, ih3, ih4⟩ := ih i hiis hpw'
      rw [hstep]
      refine ⟨⟨le_trans (le_of_lt hmi) ih1a, ?_⟩, ⟨le_trans (le_of_lt hc) ih2a, ?_⟩, ?_, ?_⟩
      · rcases ih1b with h | h
        · refine Or.inr ?_
          rw [h]
          exact List.mem_cons_self i is
        · exact Or.inr (List.mem_cons_of_mem i h)
      · intro x hx
        rcases List.mem_cons.mp hx with h | h
        · exact h ▸ ih2a
        · exact ih2b x h
      · exact fun _ => lt_of_lt_of_le hc ih2a
      · intro x hx hxR
        rcases List.mem_cons.mp hx with h | h
        · subst h
          exact ih3 (ne_of_gt hxR)
        · exact ih4 x h hxR
    · have hstep : maxRowAux A p (i :: is) m = maxRowAux A p is m := by
        simp [maxRowAux, if_neg hc]
      obtain ⟨⟨ih1a, ih1b⟩, ⟨ih2a, ih2b⟩, ih3, ih4⟩ := ih m hmis hpw'
      rw [hstep]
      have hile : rabs (A i p) ≤ rabs (A m p) := not_lt.mp hc
      refine ⟨⟨ih1a, ?_⟩, ⟨ih2a, ?_⟩, ih3, ?_⟩
      · rcases ih1b with h | h
        · exact Or.inl h
        · exact Or.inr (List.mem_cons_of_mem i h)
      · intro x hx
        rcases List.mem_cons.mp hx with h | h
        · exact h ▸ le_trans hile ih2a
        · exact ih2b x h
      · intro x hx hxR
        rcases List.mem_cons.mp hx with h | h
        · subst h
          exact lt_of_le_of_lt hile (ih3 (ne_of_gt (lt_trans hmi hxR)))
        · exact ih4 x h hxR

theorem maxRow_spec_all {n : ℕ} (A : Mat n) (p : Fin n) :
    (p ≤ maxRow A p ∧ (maxRow A p = p ∨ maxRow A p ∈ rowsAfter n p)) ∧
      (rabs (A p p) ≤ rabs (A (maxRow A p) p) ∧
        ∀ i ∈ rowsAfter n p, rabs (A i p) ≤ rabs (A (maxRow A p) p)) ∧
      (maxRow A p ≠ p → rabs (A p p) < rabs (A (maxRow A p) p)) ∧
      (∀ i ∈ rowsAfter n p, i < maxRow A p → rabs (A i p) < rabs (A (maxRow A p) p)) :=
  maxRowAux_spec A p (rowsAfter n p) p (fun _ hi => mem_rowsAfter.mp hi)
    (pairwise_rowsAfter p)

theorem maxRow_ge {n : ℕ} (A : Mat n) (p : Fin n) : p ≤ maxRow A p :=
  (maxRow_spec_all A p).1.1

theorem maxRow_max {n : ℕ} (A : Mat n) (p : Fin n) :
    ∀ i, p ≤ i → rabs (A i p) ≤ rabs (A (maxRow A p) p) := by
  intro i hpi
  rcases eq_or_lt_of_le hpi with h | h
  · exact h ▸ (maxRow_spec_all A p).2.1.1
  · exact (maxRow_spec_all A p).2.1.2 i (mem_rowsAfter.mpr h)

theorem maxRow_first {n : ℕ} (A : Mat n) (p : Fin n) :
    ∀ i, p ≤ i → i < maxRow A p → rabs (A i p) < rabs (A (maxRow A p) p) := by
  intro i hpi hlt
  rcases eq_or_lt_of_le hpi with h | h
  · rw [← h] at hlt ⊢
    exact (maxRow_spec_all A p).2.2.1 (ne_of_gt hlt)
  · exact (maxRow_spec_all A p).2.2.2 i (mem_rowsAfter.mpr h) hlt

/-! Solution sets of linear systems -/

/-- The dot product of one matrix row with a candidate solution. -/
def dotRow {n : ℕ} (r x : Vec n) : ℚ := ∑ j, r j * x j

/-- Predicate stating that `x` solves the system `s.1 · x = s.2`. -/
def isSol {n : ℕ} (s : Mat n × Vec n) (x : Vec n) : Prop :=
  ∀ i, dotRow (s.1 i) x = s.2 i

/-- The two systems have exactly the same solutions. -/
def presSol {n : ℕ} (s t : Mat n × Vec n) : Prop :=
  ∀ x, isSol s x ↔ isSol t x

theorem presSol_refl {n : ℕ} (s : Mat n × Vec n) : presSol s s := fun _ => Iff.rfl

theorem presSol_trans {n : ℕ} {s t u : Mat n × Vec n} :
    presSol s t → presSol t u → presSol s u :=
  fun h1 h2 x => (h1 x).trans (h2 x)

theorem dotRow_sub {n : ℕ} (u v x : Vec n) (c : ℚ) :
    dotRow (fun j => u j - c * v j) x = dotRow u x - c * dotRow v x := by
  unfold dotRow
  rw [Finset.mul_sum, ← Finset.sum_sub_distrib]
  congr 1
  funext j
  ring

/-! The row swap -/

theorem swapRows_apply {n : ℕ} (A : Mat n) (p m i : Fin n) :
    swapRows A p m i = A (Equiv.swap p m i) := by
  unfold swapRows
  rcases eq_or_ne i m with h | h
  · subst h
    rw [Function.update_same, Equiv.swap_apply_right]
  · rw [Function.update_noteq h]
    rcases eq_or_ne i p with h2 | h2
    · subst h2
      rw [Function.update_same, Equiv.swap_apply_left]
    · rw [Function.update_noteq h2, Equiv.swap_apply_of_ne_of_ne h2 h]

theorem swapVec_apply {n : ℕ} (b : Vec n) (p m i : Fin n) :
    swapVec b p m i = b (Equiv.swap p m i) := by
  unfold swapVec
  rcases eq_or_ne i m with h | h
  · subst h
    rw [Function.update_same, Equiv.swap_apply_right]
  · rw [Function.update_noteq h]
    rcases eq_or_ne i p with h2 | h2
    · subst h2
      rw [Function.update_same, Equiv.swap_apply_left]
    · rw [Function.update_noteq h2, Equiv.swap_apply_of_ne_of_ne h2 h]

theorem presSol_swap {n : ℕ} (A : Mat n) (b : Vec n) (p m : Fin n) :
    presSol (A, b) (swapRows A p m, swapVec b p m) := by
  intro x
  constructor
  · intro h i
    show dotRow (swapRows A p m i) x = swapVec b p m i
    rw [swapRows_apply, swapVec_apply]
    exact h _
  · intro h i
    have h2 : dotRow (swapRows A p m (Equiv.swap p m i)) x =
        swapVec b p m (Equiv.swap p m i) := h (Equiv.swap p m i)
    show dotRow (A i) x = b i
    rwa [swapRows_apply, swapVec_apply, Equiv.swap_apply_self] at h2

/-! The elementary row operation of the elimination loop -/

theorem rowOp_sol {n : ℕ} (A : Mat n) (b : Vec n) (i p : Fin n) (c : ℚ)
    (hip : i ≠ p) :
    presSol (A, b)
      (Function.update A i (fun j => A i j - c * A p j),
        Function.update b i (b i - c * b p)) := by
  intro x
  constructor
  · intro h i'
    rcases eq_or_ne i' i with h2 | h2
    · subst h2
      show dotRow (Function.update A i' _ i') x = Function.update b i' _ i'
      rw [Function.update_same, Function.update_same, dotRow_sub]
      rw [h i', h p]
    · show dotRow (Function.update A i _ i') x = Function.update b i _ i'
      rw [Function.update_noteq h2, Function.update_noteq h2]
      exact h i'
  · intro h i'
    rcases eq_or_ne i' i with h2 | h2
    · subst h2
      have hi := h i'
      have hp := h p
      rw [show (Function.update A i' _, Function.update b i' _).1 i' =
            Function.update A i' (fun j => A i' j - c * A p j) i' from rfl] at hi
      rw [Function.update_same] at hi
      rw [show (Function.update A i' _, Function.update b i' _).2 i' =
            Function.update b i' (b i' - c * b p) i' from rfl] at hi
      rw [Function.update_same, dotRow_sub] at hi
      rw [show (Function.update A i' _, Function.update b i' _).1 p =
            Function.update A i' (fun j => A i' j - c * A p j) p from rfl] at hp
      rw [Function.update_noteq (Ne.symm hip)] at hp
      rw [show (Function.update A i' _, Function.update b i' _).2 p =
            Function.update b i' (b i' - c * b p) p from rfl] at hp
      rw [Function.update_noteq (Ne.symm hip)] at hp
      show dotRow (A i') x = b i'
      have := sub_eq_sub_iff_add_eq_add.mp hi
      rw [hp] at hi
      linarith [hi]
    · have hi := h i'
      rw [show (Function.update A i _, Function.update b i _).1 i' =
            Function.update A i (fun j => A i j - c * A p j) i' from rfl] at hi
      rw [Function.update_noteq h2] at hi
      rw [show (Function.update A i _, Function.update b i _).2 i' =
            Function.update b i (b i - c * b p) i' from rfl] at hi
      rw [Function.update_noteq h2] at hi
      exact hi

/-! Properties of the elimination loop over the rows below the pivot -/

theorem elimRows_cons {n : ℕ} (p i : Fin n) (is : List (Fin n)) (A : Mat n) (b : Vec n) :
    elimRows p (i :: is) (A, b) =
      elimRows p is
        (Function.update A i (fun j =>
            if p < j then A i j - (A i p / A p p) * A p j
            else if j = p then 0
            else A i j),
          Function.update b i (b i - (A i p / A p p) * b p)) := rfl

theorem elimRows_notMem {n : ℕ} (p : Fin n) (l : List (Fin n)) :
    ∀ (A : Mat n) (b : Vec n) (r : Fin n), r ∉ l →
      (elimRows p l (A, b)).1 r = A r ∧ (elimRows p l (A, b)).2 r = b r := by
  induction l with
  | nil => exact fun _ _ _ _ => ⟨rfl, rfl⟩
  | cons i is ih =>
    intro A b r hr
    have hri : r ≠ i := fun h => hr (h ▸ List.mem_cons_self i is)
    have hris : r ∉ is := fun h => hr (List.mem_cons_of_mem i h)
    rw [elimRows_cons]
    obtain ⟨h1, h2⟩ := ih _ _ r hris
    rw [h1, h2]
    exact ⟨Function.update_noteq hri _ _, Function.update_noteq hri _ _⟩

theorem elimRows_left {n : ℕ} (p : Fin n) (l : List (Fin n))
    (hl : ∀ i ∈ l, p < i) (hnd : l.Nodup) :
    ∀ (A : Mat n) (b : Vec n), ∀ i ∈ l, ∀ j : Fin n, ¬ p < j →
      (elimRows p l (A, b)).1 i j = if j = p then 0 else A i j := by
  induction l with
  | nil => intro A b i hi; exact absurd hi (List.not_mem_nil i)
  | cons i0 is ih =>
    intro A b i hi j hj
    have hnis : i0 ∉ is := (List.nodup_cons.mp hnd).1
    rw [elimRows_cons]
    rcases List.mem_cons.mp hi with h | h
    · subst h
      rw [(elimRows_notMem p is _ _ i hnis).1]
      simp only [Function.update_same]
      rw [if_neg hj]
    · have hii0 : i ≠ i0 := fun he => hnis (he ▸ h)
      rw [ih (fun x hx => hl x (List.mem_cons_of_mem i0 hx))
        (List.nodup_cons.mp hnd).2 _ _ i h j hj]
      rw [Function.update_noteq hii0]

theorem elimRows_sol {n : ℕ} (p : Fin n) (l : List (Fin n))
    (hl : ∀ i ∈ l, p < i) :
    ∀ (A : Mat n) (b : Vec n), (∀ j, j < p → A p j = 0) → A p p ≠ 0 →
      presSol (A, b) (elimRows p l (A, b)) := by
  induction l with
  | nil => exact fun A b _ _ => presSol_refl (A, b)
  | cons i is ih =>
    intro A b h0 hpp
    have hpi : p < i := hl i (List.mem_cons_self i is)
    have hip : i ≠ p := ne_of_gt hpi
    have hnew : (fun j =>
          if p < j then A i j - (A i p / A p p) * A p j
          else if j = p then 0
          else A i j)
        = (fun j => A i j - (A i p / A p p) * A p j) := by
      funext j
      by_cases hj : p < j
      · rw [if_pos hj]
      · rw [if_neg hj]
        rcases eq_or_ne j p with hjp | hjp
        · subst hjp
          rw [if_pos rfl, div_mul_cancel₀ _ hpp, sub_self]
        · have hjlt : j < p := lt_of_le_of_ne (le_of_not_lt hj) hjp
          rw [if_neg hjp, h0 j hjlt, mul_zero, sub_zero]
    have hstep : presSol (A, b)
        (Function.update A i (fun j =>
            if p < j then A i j - (A i p / A p p) * A p j
            else if j = p then 0
            else A i j),
          Function.update b i (b i - (A i p / A p p) * b p)) := by
      rw [hnew]
      exact rowOp_sol A b i p (A i p / A p p) hip
    rw [elimRows_cons]
    refine presSol_trans hstep (ih (fun x hx => hl x (List.mem_cons_of_mem i hx)) _ _ ?_ ?_)
    · intro j hj
      rw [Function.update_noteq (Ne.symm hip)]
      exact h0 j hj
    · rw [Function.update_noteq (Ne.symm hip)]
      exact hpp

theorem elimRows_fst_eq {n : ℕ} (p : Fin n) (l : List (Fin n)) :
    ∀ (A : Mat n) (b₁ b₂ : Vec n),
      (elimRows p l (A, b₁)).1 = (elimRows p l (A, b₂)).1 := by
  induction l with
  | nil => exact fun _ _ _ => rfl
  | cons i is ih =>
    intro A b₁ b₂
    rw [elimRows_cons, elimRows_cons]
    exact ih _ _ _

/-! One pivot step and the outer elimination loop -/

/-- The state after one successful pivot step at column `p`: the optional
full row swap followed by elimination below the pivot. -/
def stepState {n : ℕ} (A : Mat n) (b : Vec n) (p : Fin n) : Mat n × Vec n :=
  elimRows p (rowsAfter n p)
    (if maxRow A p ≠ p then (swapRows A p (maxRow A p), swapVec b p (maxRow A p))
      else (A, b))

theorem elimLoop_nil {n : ℕ} (s : Mat n × Vec n) : elimLoop [] s = (true, s) := rfl

theorem elimLoop_cons_fail {n : ℕ} (p : Fin n) (ps : List (Fin n)) (s : Mat n × Vec n)
    (h : failCond s p) : elimLoop (p :: ps) s = (false, s) := by
  simp only [elimLoop, if_pos h]

theorem elimLoop_cons_ok {n : ℕ} (p : Fin n) (ps : List (Fin n)) (s : Mat n × Vec n)
    (h : ¬ failCond s p) :
    elimLoop (p :: ps) s = elimLoop ps (stepState s.1 s.2 p) := by
  simp only [elimLoop, if_neg h, stepState]

theorem stepState_notMem {n : ℕ} (A : Mat n) (b : Vec n) (p r : Fin n) (hr : r < p) :
    (stepState A b p).1 r = A r ∧ (stepState A b p).2 r = b r := by
  have hnot : r ∉ rowsAfter n p := fun hmem =>
    absurd (mem_rowsAfter.mp hmem) (not_lt.mpr (le_of_lt hr))
  have hrp : r ≠ p := ne_of_lt hr
  have hrm : r ≠ maxRow A p := ne_of_lt (lt_of_lt_of_le hr (maxRow_ge A p))
  unfold stepState
  by_cases hm : maxRow A p ≠ p
  · rw [if_pos hm]
    obtain ⟨h1, h2⟩ := elimRows_notMem p (rowsAfter n p)
      (swapRows A p (maxRow A p)) (swapVec b p (maxRow A p)) r hnot
    rw [h1, h2, swapRows_apply, swapVec_apply, Equiv.swap_apply_of_ne_of_ne hrp hrm]
    exact ⟨rfl, rfl⟩
  · rw [if_neg hm]
    exact elimRows_notMem p (rowsAfter n p) A b r hnot

theorem elimLoop_frozen {n : ℕ} : ∀ (l : List (Fin n)) (s : Mat n × Vec n) (r : Fin n),
    (∀ q ∈ l, r < q) →
    (elimLoop l s).2.1 r = s.1 r ∧ (elimLoop l s).2.2 r = s.2 r := by
  intro l
  induction l with
  | nil => exact fun s r _ => ⟨rfl, rfl⟩
  | cons p ps ih =>
    intro s r hr
    by_cases hf : failCond s p
    · rw [elimLoop_cons_fail p ps s hf]
      exact ⟨rfl, rfl⟩
    · rw [elimLoop_cons_ok p ps s hf]
      have hrp : r < p := hr p (List.mem_cons_self p ps)
      obtain ⟨h1, h2⟩ := ih (stepState s.1 s.2 p) r
        (fun q hq => hr q (List.mem_cons_of_mem p hq))
      obtain ⟨h3, h4⟩ := stepState_notMem s.1 s.2 p r hrp
      exact ⟨h1.trans h3, h2.trans h4⟩

theorem stepState_fst_eq {n : ℕ} (A : Mat n) (b₁ b₂ : Vec n) (p : Fin n) :
    (stepState A b₁ p).1 = (stepState A b₂ p).1 := by
  unfold stepState
  by_cases hm : maxRow A p ≠ p
  · rw [if_pos hm, if_pos hm]
    exact elimRows_fst_eq p _ _ _ _
  · rw [if_neg hm, if_neg hm]
    exact elimRows_fst_eq p _ _ _ _

/-- The boolean result and the final matrix depend only on the matrix
component of the state (the right-hand side is passive in elimination). -/
theorem elimLoop_matEq {n : ℕ} : ∀ (l : List (Fin n)) (s₁ s₂ : Mat n × Vec n),
    s₁.1 = s₂.1 →
    (elimLoop l s₁).1 = (elimLoop l s₂).1 ∧
    (elimLoop l s₁).2.1 = (elimLoop l s₂).2.1 := by
  intro l
  induction l with
  | nil => exact fun s₁ s₂ h => ⟨rfl, h⟩
  | cons p ps ih =>
    intro s₁ s₂ h1
    by_cases hf : failCond s₁ p
    · have hf2 : failCond s₂ p := by
        unfold failCond at hf ⊢
        rwa [h1] at hf
      rw [elimLoop_cons_fail p ps s₁ hf, elimLoop_cons_fail p ps s₂ hf2]
      exact ⟨rfl, h1⟩
    · have hf2 : ¬ failCond s₂ p := by
        unfold failCond at hf ⊢
        rwa [h1] at hf
      rw [elimLoop_cons_ok p ps s₁ hf, elimLoop_cons_ok p ps s₂ hf2]
      refine ih _ _ ?_
      rw [h1]
      exact stepState_fst_eq s₂.1 s₁.2 s₂.2 p

/-- If the partial run over `l₁` succeeds and then the pivot test at `p`
fails, the whole loop returns `false` together with the state reached just
before step `p`. -/
theorem elimLoop_fail_at {n : ℕ} : ∀ (l₁ : List (Fin n)) (p : Fin n) (l₂ : List (Fin n))
    (s : Mat n × Vec n),
    (elimLoop l₁ s).1 = true → failCond (elimLoop l₁ s).2 p →
    elimLoop (l₁ ++ p :: l₂) s = (false, (elimLoop l₁ s).2) := by
  intro l₁
  induction l₁ with
  | nil =>
    intro p l₂ s _ h2
    exact elimLoop_cons_fail p l₂ s h2
  | cons q l₁' ih =>
    intro p l₂ s h1 h2
    by_cases hq : failCond s q
    · rw [elimLoop_cons_fail q l₁' s hq] at h1
      exact absurd h1 (by simp)
    · rw [elimLoop_cons_ok q l₁' s hq] at h1 h2
      rw [List.cons_append, elimLoop_cons_ok q (l₁' ++ p :: l₂) s hq, ih p l₂ _ h1 h2]
      rw [elimLoop_cons_ok q l₁' s hq]

/-- The loop returns `false` exactly when some pivot column `p` is reached
with all previous pivot tests passing and the test at `p` failing. -/
theorem elimLoop_false_iff {n : ℕ} : ∀ (l : List (Fin n)) (s : Mat n × Vec n),
    (elimLoop l s).1 = false ↔
      ∃ l₁ p l₂, l = l₁ ++ p :: l₂ ∧ (elimLoop l₁ s).1 = true ∧
        failCond (elimLoop l₁ s).2 p := by
  intro l
  induction l with
  | nil =>
    intro s
    constructor
    · intro h
      exact absurd h (by simp [elimLoop_nil])
    · rintro ⟨l₁, p, l₂, hsplit, -, -⟩
      cases l₁ <;> simp at hsplit
  | cons p0 ps ih =>
    intro s
    by_cases hf : failCond s p0
    · rw [elimLoop_cons_fail p0 ps s hf]
      constructor
      · intro _
        exact ⟨[], p0, ps, rfl, rfl, hf⟩
      · intro _
        rfl
    · rw [elimLoop_cons_ok p0 ps s hf, ih (stepState s.1 s.2 p0)]
      constructor
      · rintro ⟨l₁, p, l₂, hsplit, ht, hfc⟩
        refine ⟨p0 :: l₁, p, l₂, by rw [List.cons_append, hsplit], ?_, ?_⟩
        · rw [elimLoop_cons_ok p0 l₁ s hf]
          exact ht
        · rw [elimLoop_cons_ok p0 l₁ s hf]
          exact hfc
      · rintro ⟨l₁, p, l₂, hsplit, ht, hfc⟩
        cases l₁ with
        | nil =>
          rw [List.nil_append] at hsplit
          injection hsplit with hp hl
          subst hp
          exact absurd hfc hf
        | cons q l₁' =>
          rw [List.cons_append] at hsplit
          injection hsplit with hq hl
          subst hq
          rw [elimLoop_cons_ok p0 l₁' s hf] at ht hfc
          exact ⟨l₁', p, l₂, hl, ht, hfc⟩

/-! The triangular-shape invariant of forward elimination -/

/-- Columns `0, ..., k-1` are zero strictly below the diagonal. -/
def Triag {n : ℕ} (A : Mat n) (k : ℕ) : Prop :=
  ∀ i j : Fin n, (j : ℕ) < k → j < i → A i j = 0

theorem ne_zero_of_eps_le {x : ℚ} (h : eps ≤ rabs x) : x ≠ 0 := by
  intro h0
  rw [h0] at h
  norm_num [rabs, eps] at h

theorem nodup_rowsAfter {n : ℕ} (p : Fin n) : (rowsAfter n p).Nodup := by
  rw [rowsAfter, idxList_eq_finRange]
  exact (List.nodup_finRange n).filter _

theorem swapRows_triag {n : ℕ} (A : Mat n) (p m : Fin n) (hpm : p ≤ m)
    (hT : Triag A p.val) : Triag (swapRows A p m) p.val := by
  intro i j hj hji
  rw [swapRows_apply]
  apply hT _ j hj
  by_cases hip : i = p
  · subst hip
    rw [Equiv.swap_apply_left]
    exact lt_of_lt_of_le (Fin.lt_def.mpr hj) hpm
  · by_cases him : i = m
    · subst him
      rw [Equiv.swap_apply_right]
      exact Fin.lt_def.mpr hj
    · rw [Equiv.swap_apply_of_ne_of_ne hip him]
      exact hji

theorem elimRows_triag {n : ℕ} (p : Fin n) (A1 : Mat n) (b1 : Vec n)
    (hT : Triag A1 p.val) :
    Triag (elimRows p (rowsAfter n p) (A1, b1)).1 (p.val + 1) := by
  intro i j hj hji
  by_cases hpi : p < i
  · have hnj : ¬ p < j := by
      intro hc
      rw [Fin.lt_def] at hc
      omega
    rw [elimRows_left p (rowsAfter n p) (fun x hx => mem_rowsAfter.mp hx)
      (nodup_rowsAfter p) A1 b1 i (mem_rowsAfter.mpr hpi) j hnj]
    by_cases hjp : j = p
    · rw [if_pos hjp]
    · rw [if_neg hjp]
      refine hT i j ?_ hji
      have : (j : ℕ) ≠ p.val := fun he => hjp (Fin.ext he)
      omega
  · have hnot : i ∉ rowsAfter n p := fun hmem => hpi (mem_rowsAfter.mp hmem)
    rw [(elimRows_notMem p (rowsAfter n p) A1 b1 i hnot).1]
    refine hT i j ?_ hji
    have h1 : (j : ℕ) < (i : ℕ) := Fin.lt_def.mp hji
    have h2 : (i : ℕ) ≤ p.val := Fin.le_def.mp (not_lt.mp hpi)
    omega

theorem stepState_triag {n : ℕ} (A : Mat n) (b : Vec n) (p : Fin n)
    (hT : Triag A p.val) : Triag (stepState A b p).1 (p.val + 1) := by
  unfold stepState
  by_cases hm : maxRow A p ≠ p
  · rw [if_pos hm]
    exact elimRows_triag p _ _ (swapRows_triag A p (maxRow A p) (maxRow_ge A p) hT)
  · rw [if_neg hm]
    exact elimRows_triag p _ _ hT

theorem stepState_row_p {n : ℕ} (A : Mat n) (b : Vec n) (p : Fin n) :
    (stepState A b p).1 p = A (maxRow A p) := by
  unfold stepState
  by_cases hm : maxRow A p ≠ p
  · rw [if_pos hm, (elimRows_notMem p _ _ _ p (not_mem_rowsAfter_self p)).1,
      swapRows_apply, Equiv.swap_apply_left]
  · rw [if_neg hm, (elimRows_notMem p _ _ _ p (not_mem_rowsAfter_self p)).1,
      not_not.mp hm]

theorem stepState_diag {n : ℕ} (A : Mat n) (b : Vec n) (p : Fin n)
    (hf : ¬ failCond (A, b) p) : eps ≤ rabs ((stepState A b p).1 p p) := by
  have h : (stepState A b p).1 p p = A (maxRow A p) p := congrFun (stepState_row_p A b p) p
  rw [h]
  exact not_lt.mp hf

theorem stepState_sol {n : ℕ} (A : Mat n) (b : Vec n) (p : Fin n)
    (hT : Triag A p.val) (hf : ¬ failCond (A, b) p) :
    presSol (A, b) (stepState A b p) := by
  unfold stepState
  by_cases hm : maxRow A p ≠ p
  · rw [if_pos hm]
    refine presSol_trans (presSol_swap A b p (maxRow A p)) ?_
    refine elimRows_sol p _ (fun x hx => mem_rowsAfter.mp hx) _ _ ?_ ?_
    · intro j hj
      exact swapRows_triag A p _ (maxRow_ge A p) hT p j (Fin.lt_def.mp hj) hj
    · have h : (swapRows A p (maxRow A p)) p p = A (maxRow A p) p := by
        rw [swapRows_apply, Equiv.swap_apply_left]
      rw [h]
      exact ne_zero_of_eps_le (not_lt.mp hf)
  · rw [if_neg hm]
    refine elimRows_sol p _ (fun x hx => mem_rowsAfter.mp hx) _ _ ?_ ?_
    · intro j hj
      exact hT p j (Fin.lt_def.mp hj) hj
    · have hmp : maxRow A p = p := not_not.mp hm
      have hge : eps ≤ rabs (A (maxRow A p) p) := not_lt.mp hf
      rw [hmp] at hge
      exact ne_zero_of_eps_le hge

/-! Splitting the pivot list -/

theorem idxList_length (n : ℕ) : (idxList n).length = n := by
  rw [idxList_eq_finRange]
  exact List.length_finRange n

theorem idxList_getElem {n k : ℕ} (hk : k < n) (hl : k < (idxList n).length) :
    (idxList n)[k] = ⟨k, hk⟩ := by
  apply Fin.ext
  simp [idxList_eq_finRange, List.getElem_finRange]

theorem idxList_drop_eq {n : ℕ} (k : ℕ) (hk : k < n) :
    (idxList n).drop k = ⟨k, hk⟩ :: (idxList n).drop (k + 1) := by
  have hlen : k < (idxList n).length := by
    rw [idxList_length]
    exact hk
  rw [List.drop_eq_getElem_cons hlen, idxList_getElem hk hlen]

theorem idxList_drop_nil {n : ℕ} (k : ℕ) (hk : n ≤ k) : (idxList n).drop k = [] := by
  apply List.drop_eq_nil_of_le
  rw [idxList_length]
  exact hk

theorem idxList_drop_lb {n : ℕ} (k : ℕ) : ∀ q ∈ (idxList n).drop k, k ≤ (q : ℕ) := by
  intro q hq
  obtain ⟨i, hi, he⟩ := List.mem_iff_getElem.mp hq
  rw [List.getElem_drop] at he
  have hki : k + i < n := by
    rw [List.length_drop, idxList_length] at hi
    omega
  rw [idxList_getElem hki (by rw [idxList_length]; exact hki)] at he
  rw [← he]
  exact Nat.le_add_right k i

/-- Main invariant of the forward elimination: running the loop on the
pivot suffix `drop k` from a state whose first `k` columns are already
eliminated yields (on success) a fully upper-triangular matrix whose
remaining diagonal entries all passed the pivot test, while preserving the
solution set. -/
theorem elim_invariant {n : ℕ} : ∀ (l : List (Fin n)) (k : ℕ) (s : Mat n × Vec n),
    l = (idxList n).drop k → Triag s.1 k →
    (elimLoop l s).1 = true →
    Triag (elimLoop l s).2.1 n ∧
    (∀ i : Fin n, k ≤ (i : ℕ) → eps ≤ rabs ((elimLoop l s).2.1 i i)) ∧
    presSol s (elimLoop l s).2 := by
  intro l
  induction l with
  | nil =>
    intro k s hl hT _
    have hnk : n ≤ k := by
      by_contra hc
      rw [idxList_drop_eq k (not_le.mp hc)] at hl
      exact List.cons_ne_nil _ _ hl.symm
    refine ⟨?_, ?_, presSol_refl s⟩
    · intro i j hj hji
      exact hT i j (lt_of_lt_of_le hj hnk) hji
    · intro i hi
      have := i.isLt
      exact absurd i.isLt (by omega)
  | cons p ps ih =>
    intro k s hl hT htrue
    have hkn : k < n := by
      by_contra hc
      rw [idxList_drop_nil k (not_lt.mp hc)] at hl
      exact List.cons_ne_nil _ _ hl
    rw [idxList_drop_eq k hkn] at hl
    injection hl with hp hps
    have hpv : (p : ℕ) = k := by rw [hp]
    by_cases hf : failCond s p
    · rw [elimLoop_cons_fail p ps s hf] at htrue
      simp at htrue
    · rw [elimLoop_cons_ok p ps s hf] at htrue ⊢
      have hfs : ¬ failCond (s.1, s.2) p := hf
      have hTp : Triag s.1 (p : ℕ) := by
        rw [hpv]
        exact hT
      have hTs : Triag (stepState s.1 s.2 p).1 (k + 1) := by
        rw [← hpv]
        exact stepState_triag s.1 s.2 p hTp
      obtain ⟨ihT, ihD, ihS⟩ := ih (k + 1) (stepState s.1 s.2 p) hps hTs htrue
      have hbound : ∀ q ∈ ps, p < q := by
        intro q hq
        have hq' : q ∈ (idxList n).drop (k + 1) := by
          rw [← hps]
          exact hq
        have := idxList_drop_lb (k + 1) q hq'
        rw [Fin.lt_def]
        omega
      refine ⟨ihT, ?_, ?_⟩
      · intro i hi
        rcases eq_or_lt_of_le hi with he | hlt
        · have hip : i = p := Fin.ext (by omega)
          rw [hip]
          have hfr := elimLoop_frozen ps (stepState s.1 s.2 p) p hbound
          rw [hfr.1]
          exact stepState_diag s.1 s.2 p hfs
        · exact ihD i (by omega)
      · exact presSol_trans (stepState_sol s.1 s.2 p hTp hfs) ihS

/-! Back substitution -/

theorem foldl_sub_eq {α : Type} (g : α → ℚ) : ∀ (l : List α) (c : ℚ),
    l.foldl (fun acc j => acc - g j) c = c - (l.map g).sum := by
  intro l
  induction l with
  | nil => intro c; simp
  | cons a l ih =>
    intro c
    rw [List.foldl_cons, ih, List.map_cons, List.sum_cons]
    ring

theorem listSum_filter_eq {n : ℕ} (q : Fin n → Bool) (g : Fin n → ℚ) :
    ∀ l : List (Fin n),
      ((l.filter q).map g).sum = (l.map fun j => if q j = true then g j else 0).sum := by
  intro l
  induction l with
  | nil => rfl
  | cons a l ih =>
    rw [List.filter_cons]
    by_cases hq : q a = true
    · rw [if_pos hq, List.map_cons, List.sum_cons, ih, List.map_cons, List.sum_cons,
        if_pos hq]
    · rw [if_neg hq, ih, List.map_cons, List.sum_cons, if_neg hq, zero_add]

theorem rowsAfter_sum {n : ℕ} (p : Fin n) (g : Fin n → ℚ) :
    ((rowsAfter n p).map g).sum = ∑ j ∈ Finset.univ.filter (fun j => p < j), g j := by
  rw [rowsAfter, listSum_filter_eq, idxList_eq_finRange, ← Fin.sum_univ_def,
    Finset.sum_filter]
  congr 1
  funext j
  simp

theorem backSubRow_eq {n : ℕ} (A : Mat n) (b : Vec n) (i : Fin n) :
    backSubRow A b i =
      (b i - ∑ j ∈ Finset.univ.filter (fun j => i < j), A i j * b j) / A i i := by
  unfold backSubRow
  rw [foldl_sub_eq (fun j => A i j * b j) (rowsAfter n i) (b i), rowsAfter_sum]

theorem dotRow_split {n : ℕ} (U : Mat n) (x : Vec n) (i : Fin n)
    (hlow : ∀ j : Fin n, j < i → U i j = 0) :
    dotRow (U i) x =
      U i i * x i + ∑ j ∈ Finset.univ.filter (fun j => i < j), U i j * x j := by
  unfold dotRow
  rw [← Finset.sum_filter_add_sum_filter_not Finset.univ (fun j => i < j)]
  have h2 : ∑ j ∈ Finset.univ.filter (fun j => ¬ i < j), U i j * x j = U i i * x i := by
    apply Finset.sum_eq_single_of_mem i
    · simp
    · intro j hj hne
      rw [hlow j (lt_of_le_of_ne (not_lt.mp (Finset.mem_filter.mp hj).2) hne), zero_mul]
  rw [h2]
  ring

theorem take_succ_idxList {n : ℕ} (m : ℕ) (hm : m < n) :
    (idxList n).take (m + 1) = (idxList n).take m ++ [⟨m, hm⟩] := by
  rw [List.take_succ]
  congr 1
  rw [List.getElem?_eq_getElem (by rw [idxList_length]; exact hm), idxList_getElem hm]
  rfl

theorem reverse_take_succ {n : ℕ} (m : ℕ) (hm : m < n) :
    ((idxList n).take (m + 1)).reverse = ⟨m, hm⟩ :: ((idxList n).take m).reverse := by
  rw [take_succ_idxList m hm, List.reverse_append]
  rfl

/-- Correctness of back substitution on an upper-triangular matrix with
nonzero diagonal: after processing rows `m-1, ..., 0`, the entries at
positions `≥ m` are untouched and the equations of rows `< m` hold. -/
theorem backSub_spec {n : ℕ} (U : Mat n) (hlow : ∀ i j : Fin n, j < i → U i j = 0)
    (hd : ∀ i : Fin n, U i i ≠ 0) :
    ∀ (m : ℕ), m ≤ n → ∀ b : Vec n,
      (∀ j : Fin n, m ≤ (j : ℕ) →
        backSub U ((idxList n).take m).reverse b j = b j) ∧
      (∀ i : Fin n, (i : ℕ) < m →
        dotRow (U i) (backSub U ((idxList n).take m).reverse b) = b i) := by
  intro m
  induction m with
  | zero =>
    intro _ b
    constructor
    · intro j _
      rfl
    · intro i hi
      exact absurd hi (Nat.not_lt_zero _)
  | succ m ihm =>
    intro hm b
    have hmn : m < n := hm
    rw [reverse_take_succ m hmn]
    have hcons : backSub U (⟨m, hmn⟩ :: ((idxList n).take m).reverse) b
        = backSub U ((idxList n).take m).reverse
            (Function.update b ⟨m, hmn⟩ (backSubRow U b ⟨m, hmn⟩)) := rfl
    rw [hcons]
    obtain ⟨ha, hb⟩ := ihm (le_of_lt hmn)
      (Function.update b ⟨m, hmn⟩ (backSubRow U b ⟨m, hmn⟩))
    have hne : ∀ j : Fin n, m < (j : ℕ) → j ≠ (⟨m, hmn⟩ : Fin n) := by
      intro j hj he
      rw [he] at hj
      exact absurd hj (lt_irrefl m)
    constructor
    · intro j hj
      rw [ha j (by omega)]
      exact Function.update_noteq (hne j (by omega)) _ _
    · intro i hi
      rcases Nat.lt_succ_iff_lt_or_eq.mp hi with hlt | heq
    
      · rw [hb i hlt]
        exact Function.update_noteq (fun he => by
          rw [he] at hlt
          exact absurd hlt (lt_irrefl m)) _ _
      · have him : i = (⟨m, hmn⟩ : Fin n) := Fin.ext heq
        rw [him]
        rw [dotRow_split U _ ⟨m, hmn⟩ (fun j hji => hlow _ j hji)]
        have hxpm : backSub U ((idxList n).take m).reverse
            (Function.update b ⟨m, hmn⟩ (backSubRow U b ⟨m, hmn⟩)) ⟨m, hmn⟩
            = backSubRow U b ⟨m, hmn⟩ := by
          rw [ha ⟨m, hmn⟩ (le_refl m)]
          exact Function.update_same _ _ _
        have hxj : ∀ j : Fin n, (⟨m, hmn⟩ : Fin n) < j →
            backSub U ((idxList n).take m).reverse
              (Function.update b ⟨m, hmn⟩ (backSubRow U b ⟨m, hmn⟩)) j = b j := by
          intro j hj
          have hjv : m < (j : ℕ) := Fin.lt_def.mp hj
          rw [ha j (by omega)]
          exact Function.update_noteq (hne j hjv) _ _
        rw [hxpm]
        rw [Finset.sum_congr rfl (fun j hj => by
          rw [hxj j (Finset.mem_filter.mp hj).2])]
        rw [backSubRow_eq, mul_comm, div_mul_cancel₀ _ (hd ⟨m, hmn⟩)]
        ring

/-! Unfolding `solveMatrix` -/

theorem solveMatrix_fst {n : ℕ} (A : Mat n) (b : Vec n) :
    (solveMatrix A b).1 = (elimLoop (idxList n) (A, b)).1 := by
  simp only [solveMatrix]
  by_cases h : (elimLoop (idxList n) (A, b)).1 = true
  · rw [if_pos h, h]
  · rw [if_neg h]

theorem solveMatrix_mat {n : ℕ} (A : Mat n) (b : Vec n) :
    (solveMatrix A b).2.1 = (elimLoop (idxList n) (A, b)).2.1 := by
  simp only [solveMatrix]
  by_cases h : (elimLoop (idxList n) (A, b)).1 = true
  · rw [if_pos h]
  · rw [if_neg h]

theorem solveMatrix_vec_true {n : ℕ} (A : Mat n) (b : Vec n)
    (h : (elimLoop (idxList n) (A, b)).1 = true) :
    (solveMatrix A b).2.2 =
      backSub (elimLoop (idxList n) (A, b)).2.1 (idxList n).reverse
        (elimLoop (idxList n) (A, b)).2.2 := by
  simp only [solveMatrix]
  rw [if_pos h]

theorem solveMatrix_eq_of_false {n : ℕ} (A : Mat n) (b : Vec n)
    (h : (elimLoop (idxList n) (A, b)).1 = false) :
    solveMatrix A b = elimLoop (idxList n) (A, b) := by
  simp only [solveMatrix]
  rw [if_neg (by rw [h]; exact Bool.false_ne_true)]

theorem triag_zero {n : ℕ} (A : Mat n) : Triag A 0 :=
  fun _ _ hj _ => absurd hj (Nat.not_lt_zero _)

theorem idxList_take_n (n : ℕ) : (idxList n).take n = idxList n := by
  have h : (idxList n).take (idxList n).length = idxList n := by simp
  rwa [idxList_length] at h

/-- Master theorem for successful runs: the final matrix is upper
triangular with every diagonal entry at least `eps` in magnitude, and the
final vector solves the original system exactly. -/
theorem solve_true_master {n : ℕ} (A : Mat n) (b : Vec n)
    (h : (solveMatrix A b).1 = true) :
    Triag (solveMatrix A b).2.1 n ∧
    (∀ i : Fin n, eps ≤ rabs ((solveMatrix A b).2.1 i i)) ∧
    (∀ i, dotRow (A i) ((solveMatrix A b).2.2) = b i) := by
  rw [solveMatrix_fst] at h
  obtain ⟨hT, hD, hS⟩ := elim_invariant (idxList n) 0 (A, b)
    (List.drop_zero _).symm (triag_zero A) h
  have hD' : ∀ i : Fin n, eps ≤ rabs ((elimLoop (idxList n) (A, b)).2.1 i i) :=
    fun i => hD i (Nat.zero_le _)
  have hlow : ∀ i j : Fin n, j < i → (elimLoop (idxList n) (A, b)).2.1 i j = 0 :=
    fun i j hji => hT i j j.isLt hji
  have hd : ∀ i : Fin n, (elimLoop (idxList n) (A, b)).2.1 i i ≠ 0 :=
    fun i => ne_zero_of_eps_le (hD' i)
  obtain ⟨-, hbs⟩ := backSub_spec (elimLoop (idxList n) (A, b)).2.1 hlow hd n
    (le_refl n) (elimLoop (idxList n) (A, b)).2.2
  rw [idxList_take_n] at hbs
  have hsol : isSol (elimLoop (idxList n) (A, b)).2
      (backSub (elimLoop (idxList n) (A, b)).2.1 (idxList n).reverse
        (elimLoop (idxList n) (A, b)).2.2) :=
    fun i => hbs i i.isLt
  have hAx : isSol (A, b)
      (backSub (elimLoop (idxList n) (A, b)).2.1 (idxList n).reverse
        (elimLoop (idxList n) (A, b)).2.2) :=
    (hS _).mpr hsol
  refine ⟨?_, ?_, ?_⟩
  · rw [solveMatrix_mat]
    exact hT
  · intro i
    rw [solveMatrix_mat]
    exact hD' i
  · intro i
    rw [solveMatrix_vec_true A b h]
    exact hAx i

/-! Remaining shared helpers -/

theorem rabs_nonneg (x : ℚ) : 0 ≤ rabs x := by
  unfold rabs
  split
  · linarith
  · linarith [not_lt.mp (by assumption : ¬ x < 0)]

theorem rabs_zero : rabs 0 = 0 := by
  norm_num [rabs]

/-- The identity matrix. -/
def idMat (n : ℕ) : Mat n := fun i j => if i = j then 1 else 0

theorem dotRow_idMat {n : ℕ} (i : Fin n) (x : Vec n) : dotRow (idMat n i) x = x i := by
  unfold dotRow idMat
  rw [Finset.sum_eq_single_of_mem i (Finset.mem_univ i)]
  · rw [if_pos rfl, one_mul]
  · intro j _ hne
    rw [if_neg (fun he => hne he.symm), zero_mul]

/-- The pivot columns processed strictly before column `p`. -/
def stepsBefore (n : ℕ) (p : Fin n) : List (Fin n) := (idxList n).take p.val

theorem idxList_split {n : ℕ} (p : Fin n) :
    idxList n = stepsBefore n p ++ p :: (idxList n).drop (p.val + 1) := by
  unfold stepsBefore
  conv_lhs => rw [← List.take_append_drop p.val (idxList n)]
  congr 1
  rw [idxList_drop_eq p.val p.isLt]

theorem splitAt_pivot_unique {n : ℕ} (p : Fin n) (l₁ l₂ : List (Fin n))
    (h : idxList n = l₁ ++ p :: l₂) : l₁ = stepsBefore n p := by
  have hlen : l₁.length < (idxList n).length := by
    rw [h]
    simp [List.length_append]
  have hv : l₁.length < n := by rwa [idxList_length] at hlen
  have hq1 : (idxList n)[l₁.length]? = some p := by
    rw [h, List.getElem?_append_right (le_refl l₁.length), Nat.sub_self]
    simp
  have hq2 : (idxList n)[l₁.length]? = some ⟨l₁.length, hv⟩ := by
    rw [List.getElem?_eq_getElem hlen, idxList_getElem hv hlen]
  rw [hq1] at hq2
  have hpv : (p : ℕ) = l₁.length := by
    have := Option.some_injective _ hq2
    rw [this]
  unfold stepsBefore
  rw [hpv, h, List.take_left]

theorem solveMatrix_b_indep {n : ℕ} (A : Mat n) (b₁ b₂ : Vec n) :
    (solveMatrix A b₁).1 = (solveMatrix A b₂).1 := by
  rw [solveMatrix_fst, solveMatrix_fst]
  exact (elimLoop_matEq (idxList n) (A, b₁) (A, b₂) rfl).1

/-! Concrete instances used by the witnesses -/

def cVec : Vec 10 := fun i => (i : ℚ)

def cZeroMat : Mat 10 := fun _ _ => 0

def cZeroRow : Mat 10 := fun i j => if (i : ℕ) = 0 then 0 else if i = j then 1 else 0

def cSwapMat : Mat 10 := fun i j =>
  if (i : ℕ) = 0 then (if (j : ℕ) = 1 then 1 else 0)
  else if (i : ℕ) = 1 then (if (j : ℕ) = 0 then 1 else 0)
  else if i = j then 1 else 0

/-! The claims -/

/-- Claim C1: if `solveMatrix A b` returns `true` then the output vector,
substituted into the original matrix `A`, reproduces the original
right-hand side `b` — here with exact rational arithmetic the residual is
exactly zero, so in particular it lies within the `1e-6` relative
tolerance of the claim. -/
theorem claim_C1_correct (A : Mat 10) (b : Vec 10)
    (h : (solveMatrix A b).1 = true) :
    ∀ i, dotRow (A i) ((solveMatrix A b).2.2) = b i ∧
      rabs (dotRow (A i) ((solveMatrix A b).2.2) - b i) ≤ (1 / 1000000) * rabs (b i) := by
  intro i
  have he := (solve_true_master A b h).2.2 i
  refine ⟨he, ?_⟩
  rw [he, sub_self, rabs_zero]
  exact mul_nonneg (by norm_num) (rabs_nonneg (b i))

theorem claim_C1_correct_witness :
    dotRow (idMat 10 3) ((solveMatrix (idMat 10) cVec).2.2) = cVec 3 ∧
      rabs (dotRow (idMat 10 3) ((solveMatrix (idMat 10) cVec).2.2) - cVec 3) ≤
        (1 / 1000000) * rabs (cVec 3) :=
  claim_C1_correct (idMat 10) cVec (by with_unfolding_all decide) 3

/-- Claim C2: `solveMatrix` returns `false` exactly when, at some pivot column
`p`, all earlier pivot steps succeeded and the selected maximum-magnitude
pivot entry at column `p` has absolute value below `1e-10`; otherwise it
returns `true`.  The failure is reported only through the boolean
component of the result. -/
theorem claim_C2_false_iff (A : Mat 10) (b : Vec 10) :
    (solveMatrix A b).1 = false ↔
      ∃ p : Fin 10, (elimLoop (stepsBefore 10 p) (A, b)).1 = true ∧
        failCond (elimLoop (stepsBefore 10 p) (A, b)).2 p := by
  rw [solveMatrix_fst, elimLoop_false_iff]
  constructor
  · rintro ⟨l₁, p, l₂, hsplit, ht, hfc⟩
    have hl₁ : l₁ = stepsBefore 10 p := splitAt_pivot_unique p l₁ l₂ hsplit
    rw [hl₁] at ht hfc
    exact ⟨p, ht, hfc⟩
  · rintro ⟨p, ht, hfc⟩
    exact ⟨stepsBefore 10 p, p, (idxList 10).drop (p.val + 1), idxList_split p, ht, hfc⟩

theorem claim_C2_false_iff_witness : (solveMatrix cZeroMat cVec).1 = false :=
  (claim_C2_false_iff cZeroMat cVec).mpr
    ⟨0, by with_unfolding_all decide, by with_unfolding_all decide⟩

/-- Claim C3: the pivot scan at column `p` returns a row index at least `p`
whose entry in column `p` has the maximum absolute value among rows
`p, ..., 9`, and every earlier row in that range has strictly smaller
absolute value (strict `>` comparison: the first row achieving the
maximum wins ties). -/
theorem claim_C3_pivot_choice (A : Mat 10) (p : Fin 10) :
    p ≤ maxRow A p ∧
    (∀ i : Fin 10, p ≤ i → rabs (A i p) ≤ rabs (A (maxRow A p) p)) ∧
    (∀ i : Fin 10, p ≤ i → i < maxRow A p → rabs (A i p) < rabs (A (maxRow A p) p)) :=
  ⟨maxRow_ge A p, maxRow_max A p, maxRow_first A p⟩

theorem claim_C3_pivot_choice_witness :
    rabs (cSwapMat 5 0) ≤ rabs (cSwapMat (maxRow cSwapMat 0) 0) :=
  (claim_C3_pivot_choice cSwapMat 0).2.1 5 (by decide)

/-- Claim C4: at a pivot step `p` that passes the singularity test, the loop
continues on the state obtained by exchanging the entire rows `p` and
`max_row` of `A` (all ten columns, including those left of `p`) together
with the entries `b[p]` and `b[max_row]` — and only those — when
`max_row ≠ p`, and on the unchanged state when `max_row = p`. -/
theorem claim_C4_row_swap (A : Mat 10) (b : Vec 10) (p : Fin 10) (ps : List (Fin 10))
    (h : ¬ failCond (A, b) p) :
    (elimLoop (p :: ps) (A, b) =
      elimLoop ps (elimRows p (rowsAfter 10 p)
        (if maxRow A p ≠ p then (swapRows A p (maxRow A p), swapVec b p (maxRow A p))
          else (A, b)))) ∧
    (maxRow A p ≠ p →
      (∀ j, swapRows A p (maxRow A p) p j = A (maxRow A p) j) ∧
      (∀ j, swapRows A p (maxRow A p) (maxRow A p) j = A p j) ∧
      (∀ i j, i ≠ p → i ≠ maxRow A p → swapRows A p (maxRow A p) i j = A i j) ∧
      swapVec b p (maxRow A p) p = b (maxRow A p) ∧
      swapVec b p (maxRow A p) (maxRow A p) = b p ∧
      (∀ i, i ≠ p → i ≠ maxRow A p → swapVec b p (maxRow A p) i = b i)) := by
  constructor
  · rw [elimLoop_cons_ok p ps (A, b) h]
    rfl
  · intro hm
    refine ⟨?_, ?_, ?_, ?_, ?_, ?_⟩
    · intro j
      rw [swapRows_apply, Equiv.swap_apply_left]
    · intro j
      rw [swapRows_apply, Equiv.swap_apply_right]
    · intro i j hip him
      rw [swapRows_apply, Equiv.swap_apply_of_ne_of_ne hip him]
    · rw [swapVec_apply, Equiv.swap_apply_left]
    · rw [swapVec_apply, Equiv.swap_apply_right]
    · intro i hip him
      rw [swapVec_apply, Equiv.swap_apply_of_ne_of_ne hip him]

theorem claim_C4_row_swap_witness :
    elimLoop [(0 : Fin 10)] (cSwapMat, cVec) =
      elimLoop [] (elimRows 0 (rowsAfter 10 0)
        (if maxRow cSwapMat 0 ≠ 0 then
            (swapRows cSwapMat 0 (maxRow cSwapMat 0), swapVec cVec 0 (maxRow cSwapMat 0))
          else (cSwapMat, cVec))) :=
  (claim_C4_row_swap cSwapMat cVec 0 [] (by with_unfolding_all decide)).1

/-- Claim C5: whenever `solveMatrix` returns `true`, the final matrix is upper
triangular with every entry strictly below the diagonal exactly `0`. -/
theorem claim_C5_upper_triangular (A : Mat 10) (b : Vec 10)
    (h : (solveMatrix A b).1 = true) :
    ∀ i j : Fin 10, j < i → (solveMatrix A b).2.1 i j = 0 :=
  fun i j hji => (solve_true_master A b h).1 i j j.isLt hji

theorem claim_C5_upper_triangular_witness : (solveMatrix (idMat 10) cVec).2.1 5 2 = 0 :=
  claim_C5_upper_triangular (idMat 10) cVec (by with_unfolding_all decide) 5 2 (by decide)

/-- Claim C6: a matrix with an all-zero row, or with two identical rows, makes
`solveMatrix` return `false` for every right-hand side. -/
theorem claim_C6_singular_detect (A : Mat 10)
    (h : (∃ r, ∀ j, A r j = 0) ∨
      (∃ r s : Fin 10, r ≠ s ∧ ∀ j, A r j = A s j)) :
    ∀ b : Vec 10, (solveMatrix A b).1 = false := by
  intro b
  by_contra hc
  have htrue : (solveMatrix A b).1 = true := by
    rcases Bool.eq_false_or_eq_true (solveMatrix A b).1 with ht | hf
    · exact ht
    · exact absurd hf hc
  rcases h with ⟨r, hr⟩ | ⟨r, s, hrs, hsame⟩
  · have htrue' : (solveMatrix A (fun i => if i = r then 1 else 0)).1 = true := by
      rw [solveMatrix_b_indep A (fun i => if i = r then 1 else 0) b]
      exact htrue
    have hx := (solve_true_master A (fun i => if i = r then 1 else 0) htrue').2.2 r
    have hz : dotRow (A r) ((solveMatrix A (fun i => if i = r then 1 else 0)).2.2) = 0 := by
      unfold dotRow
      apply Finset.sum_eq_zero
      intro j _
      rw [hr j, zero_mul]
    rw [hz, if_pos rfl] at hx
    exact absurd hx.symm one_ne_zero
  · have htrue' : (solveMatrix A (fun i => if i = s then 1 else 0)).1 = true := by
      rw [solveMatrix_b_indep A (fun i => if i = s then 1 else 0) b]
      exact htrue
    have hxr := (solve_true_master A (fun i => if i = s then 1 else 0) htrue').2.2 r
    have hxs := (solve_true_master A (fun i => if i = s then 1 else 0) htrue').2.2 s
    have hrow : A r = A s := funext hsame
    rw [hrow, hxs, if_pos rfl, if_neg hrs] at hxr
    exact absurd hxr one_ne_zero

theorem claim_C6_singular_detect_witness : (solveMatrix cZeroRow cVec).1 = false :=
  claim_C6_singular_detect cZeroRow
    (Or.inl ⟨0, by with_unfolding_all decide⟩) cVec

/-- Claim C7: on the identity matrix, `solveMatrix` succeeds and returns the
input vector unchanged (exactly, hence within floating-point epsilon). -/
theorem claim_C7_identity (v : Vec 10) :
    (solveMatrix (idMat 10) v).1 = true ∧
    ∀ i, (solveMatrix (idMat 10) v).2.2 i = v i := by
  have htrue : (solveMatrix (idMat 10) v).1 = true := by
    rw [solveMatrix_b_indep (idMat 10) v (fun _ => 0)]
    with_unfolding_all decide
  refine ⟨htrue, ?_⟩
  intro i
  have hx := (solve_true_master (idMat 10) v htrue).2.2 i
  rw [dotRow_idMat] at hx
  exact hx

theorem claim_C7_identity_witness : (solveMatrix (idMat 10) cVec).1 = true :=
  (claim_C7_identity cVec).1

/-- Claim C8: `solveMatrix` is deterministic — it is a pure function of its two
arguments, so equal inputs give equal boolean results and equal final
contents of `A` and `b`; no other state enters. -/
theorem claim_C8_deterministic (A₁ A₂ : Mat 10) (b₁ b₂ : Vec 10)
    (hA : A₁ = A₂) (hb : b₁ = b₂) :
    solveMatrix A₁ b₁ = solveMatrix A₂ b₂ := by
  rw [hA, hb]

theorem claim_C8_deterministic_witness :
    solveMatrix (idMat 10) cVec = solveMatrix (idMat 10) cVec :=
  claim_C8_deterministic (idMat 10) (idMat 10) cVec cVec rfl rfl

/-- Claim C9: when a near-zero pivot is met at column `p` (all earlier steps
having succeeded), `solveMatrix` returns normally with the boolean `false`
paired with the (total, `Fin`-indexed, hence in-bounds) state reached just
before that step; no other effect occurs. -/
theorem claim_C9_fail_normal (A : Mat 10) (b : Vec 10) (p : Fin 10)
    (h1 : (elimLoop (stepsBefore 10 p) (A, b)).1 = true)
    (h2 : failCond (elimLoop (stepsBefore 10 p) (A, b)).2 p) :
    solveMatrix A b = (false, (elimLoop (stepsBefore 10 p) (A, b)).2) := by
  have hfail := elimLoop_fail_at (stepsBefore 10 p) p
    ((idxList 10).drop (p.val + 1)) (A, b) h1 h2
  rw [← idxList_split p] at hfail
  rw [solveMatrix_eq_of_false A b (by rw [hfail])]
  exact hfail

theorem claim_C9_fail_normal_witness :
    solveMatrix cZeroMat cVec = (false, (elimLoop (stepsBefore 10 0) (cZeroMat, cVec)).2) :=
  claim_C9_fail_normal cZeroMat cVec 0
    (by with_unfolding_all decide) (by with_unfolding_all decide)

/-- Claim C10: running any further pivot steps, all with index above `r`, leaves
row `r` of the matrix and `b[r]` unchanged (later swaps and eliminations
only touch higher rows); consequently, on a successful run every final
diagonal entry — the divisors of back substitution, which itself never
writes to the matrix — has absolute value at least `1e-10`. -/
theorem claim_C10_frozen_rows_safe_diag :
    (∀ (s : Mat 10 × Vec 10) (l : List (Fin 10)) (r : Fin 10),
      (∀ q ∈ l, r < q) →
      (elimLoop l s).2.1 r = s.1 r ∧ (elimLoop l s).2.2 r = s.2 r) ∧
    (∀ (A : Mat 10) (b : Vec 10), (solveMatrix A b).1 = true →
      ∀ i : Fin 10, eps ≤ rabs ((solveMatrix A b).2.1 i i)) :=
  ⟨fun s l r h => elimLoop_frozen l s r h,
    fun A b h i => (solve_true_master A b h).2.1 i⟩

theorem claim_C10_frozen_rows_safe_diag_witness :
    (elimLoop [(5 : Fin 10)] (idMat 10, cVec)).2.1 0 = (idMat 10, cVec).1 0 :=
  (claim_C10_frozen_rows_safe_diag.1 (idMat 10, cVec) [5] 0 (by decide)).1
